import Mathlib

/-!
Verification of the `attractor` coding-agent-loop repository (Go).

Shallow embedding: Go strings are modelled as `List Char` (`GoStr`); Go's
byte-oriented `len`/slicing coincides with the char-list model on ASCII data.
Go maps are modelled as lookup functions or association lists.  Stateful code
(the Session loop) is modelled by explicit state passing, with the LLM, the
steering queue, abort flags and context cancellation supplied as oracles.
Go standard-library helpers used by the source (`strings.Split`,
`strings.Index`, `strings.Count`, `strings.Replace`, `fmt.Sprintf("%d", ·)`,
`crypto/sha256`) are given executable models below; sha256 itself is left as
an abstract function parameter since only the shape `name ++ ":" ++ hash`
matters to any stated property.
-/

set_option maxRecDepth 100000

namespace Attractor

/-- Go strings, modelled as lists of characters. -/
abbrev GoStr := List Char

/-- Decimal digit character for `d % 10` (model of `fmt.Sprintf("%d")` digits). -/
def digitChar (d : Nat) : Char :=
  match d % 10 with
  | 0 => '0' | 1 => '1' | 2 => '2' | 3 => '3' | 4 => '4'
  | 5 => '5' | 6 => '6' | 7 => '7' | 8 => '8' | _ => '9'

/-- Fuel-driven decimal rendering of a natural number (most significant first). -/
def natToCharsAux : Nat → Nat → GoStr
  | 0, _ => []
  | fuel + 1, n =>
    if n < 10 then [digitChar n]
    else natToCharsAux fuel (n / 10) ++ [digitChar (n % 10)]

/-- Model of Go `fmt.Sprintf("%d", n)` for a natural number. -/
def natToChars (n : Nat) : GoStr := natToCharsAux (n + 1) n

/-- Model of Go `strings.Split(s, sep)` for a one-character separator. -/
def splitChar (sep : Char) : GoStr → List GoStr
  | [] => [[]]
  | c :: rest =>
    if c = sep then [] :: splitChar sep rest
    else
      match splitChar sep rest with
      | [] => [[c]]
      | h :: t => (c :: h) :: t

/-- Model of Go `strings.Join(xs, sep)`. -/
def goJoin (sep : GoStr) : List GoStr → GoStr
  | [] => []
  | [x] => x
  | x :: y :: xs => x ++ sep ++ goJoin sep (y :: xs)

/-- Model of Go `strings.HasPrefix(s, pat)` (argument order `s pat`). -/
def goStartsWith : GoStr → GoStr → Bool
  | _, [] => true
  | [], _ :: _ => false
  | c :: cs, p :: ps => decide (c = p) && goStartsWith cs ps

/-- Model of Go `strings.Index(s, sub)`: index of the first occurrence. -/
def goIndexOf : GoStr → GoStr → Option Nat
  | [], sub => if sub = [] then some 0 else none
  | c :: rest, sub =>
    if goStartsWith (c :: rest) sub then some 0
    else (goIndexOf rest sub).map (· + 1)

/-- Fuel-driven worker for `goCount` (non-overlapping occurrences, nonempty `sub`). -/
def goCountAux : Nat → GoStr → GoStr → Nat
  | 0, _, _ => 0
  | fuel + 1, s, sub =>
    match goIndexOf s sub with
    | none => 0
    | some i => 1 + goCountAux fuel (s.drop (i + sub.length)) sub

/-- Model of Go `strings.Count(s, sub)`. -/
def goCount (s sub : GoStr) : Nat :=
  if sub = [] then s.length + 1
  else goCountAux (s.length + 1) s sub

/-- Model of Go `strings.Replace(s, old, new, 1)`. -/
def goReplace1 (s old new : GoStr) : GoStr :=
  if old = [] then new ++ s
  else
    match goIndexOf s old with
    | none => s
    | some i => s.take i ++ new ++ s.drop (i + old.length)

/-- Fuel-driven worker for `goReplaceAll` (nonempty `old`). -/
def goReplaceAllAux : Nat → GoStr → GoStr → GoStr → GoStr
  | 0, s, _, _ => s
  | fuel + 1, s, old, new =>
    match goIndexOf s old with
    | none => s
    | some i => s.take i ++ new ++ goReplaceAllAux fuel (s.drop (i + old.length)) old new

/-- Model of Go `strings.ReplaceAll(s, old, new)`. -/
def goReplaceAll (s old new : GoStr) : GoStr :=
  if old = [] then new ++ s.flatMap (fun c => [c] ++ new)
  else goReplaceAllAux (s.length + 1) s old new

/-! ## Truncation pipeline (`agentloop/truncation.go`) -/

/-- Go `type TruncationMode string`. -/
abbrev TruncationMode := GoStr

/-- `TruncateHeadTail TruncationMode = "head_tail"`. -/
def TruncateHeadTail : TruncationMode := "head_tail".toList

/-- `TruncateTail TruncationMode = "tail"`. -/
def TruncateTail : TruncationMode := "tail".toList

/-- The marker inserted by `TruncateOutput` in `head_tail` mode. -/
def headTailMarker (removed : Nat) : GoStr :=
  "\n\n[WARNING: Tool output was truncated. ".toList ++ natToChars removed ++
    " characters were removed from the middle. The full output is available in the event stream. If you need to see specific parts, re-run the tool with more targeted parameters.]\n\n".toList

/-- The marker inserted by `TruncateOutput` in `tail` mode. -/
def tailMarker (removed : Nat) : GoStr :=
  "[WARNING: Tool output was truncated. First ".toList ++ natToChars removed ++
    " characters were removed. The full output is available in the event stream.]\n\n".toList

/-- The marker inserted by `TruncateOutput` for an unrecognized mode (default branch). -/
def defaultModeMarker (removed : Nat) : GoStr :=
  "\n\n[WARNING: Tool output was truncated. ".toList ++ natToChars removed ++
    " characters were removed from the middle.]\n\n".toList

/-- `TruncateOutput` from `truncation.go`: character-based truncation. -/
def TruncateOutput (output : GoStr) (maxChars : Nat) (mode : TruncationMode) : GoStr :=
  if output.length ≤ maxChars then output
  else if mode = TruncateHeadTail then
    output.take (maxChars / 2) ++ headTailMarker (output.length - maxChars) ++
      output.drop (output.length - maxChars / 2)
  else if mode = TruncateTail then
    tailMarker (output.length - maxChars) ++ output.drop (output.length - maxChars)
  else
    output.take (maxChars / 2) ++ defaultModeMarker (output.length - maxChars) ++
      output.drop (output.length - maxChars / 2)

/-- `TruncateLines` from `truncation.go`: line-based head/tail truncation. -/
def TruncateLines (output : GoStr) (maxLines : Nat) : GoStr :=
  let lines := splitChar '\n' output
  if lines.length ≤ maxLines then output
  else
    let headCount := maxLines / 2
    let tailCount := maxLines - headCount
    let omitted := lines.length - headCount - tailCount
    goJoin ['\n'] (lines.take headCount) ++
      ("\n[... ".toList ++ natToChars omitted ++ " lines omitted ...]\n".toList) ++
      goJoin ['\n'] (lines.drop (lines.length - tailCount))

/-- `DefaultToolCharLimits` map from `truncation.go`, as a lookup function. -/
def DefaultToolCharLimits (toolName : GoStr) : Option Nat :=
  if toolName = "read_file".toList then some 50000
  else if toolName = "shell".toList then some 30000
  else if toolName = "grep".toList then some 20000
  else if toolName = "glob".toList then some 20000
  else if toolName = "edit_file".toList then some 10000
  else if toolName = "apply_patch".toList then some 10000
  else if toolName = "write_file".toList then some 1000
  else if toolName = "spawn_agent".toList then some 20000
  else none

/-- `DefaultTruncationModes` map from `truncation.go`, as a lookup function. -/
def DefaultTruncationModes (toolName : GoStr) : Option TruncationMode :=
  if toolName = "read_file".toList then some TruncateHeadTail
  else if toolName = "shell".toList then some TruncateHeadTail
  else if toolName = "grep".toList then some TruncateTail
  else if toolName = "glob".toList then some TruncateTail
  else if toolName = "edit_file".toList then some TruncateTail
  else if toolName = "apply_patch".toList then some TruncateTail
  else if toolName = "write_file".toList then some TruncateTail
  else if toolName = "spawn_agent".toList then some TruncateHeadTail
  else none

/-- `DefaultToolLineLimits` map from `truncation.go`, as a lookup function. -/
def DefaultToolLineLimits (toolName : GoStr) : Option Nat :=
  if toolName = "shell".toList then some 256
  else if toolName = "grep".toList then some 200
  else if toolName = "glob".toList then some 500
  else none

/-- Association-list model of a caller-supplied Go `map[string]int`. -/
abbrev LimitMap := List (GoStr × Nat)

/-- Go map lookup `m[k]` on the association-list model. -/
def mapLookup (m : LimitMap) (k : GoStr) : Option Nat :=
  (m.find? (fun kv => kv.1 = k)).map (·.2)

/-- The `maxChars` selected by `TruncateToolOutput` (caller map, then defaults,
then the 30000 fallback). -/
def effectiveMaxChars (toolName : GoStr) (charLimits : LimitMap) : Nat :=
  match mapLookup charLimits toolName with
  | some v => v
  | none =>
    match DefaultToolCharLimits toolName with
    | some v => v
    | none => 30000

/-- The truncation mode selected by `TruncateToolOutput`. -/
def effectiveMode (toolName : GoStr) : TruncationMode :=
  match DefaultTruncationModes toolName with
  | some m => m
  | none => TruncateHeadTail

/-- The `maxLines` selected by `TruncateToolOutput` (0 means no line limit).
`lineLimits` is `Option`-wrapped to model the Go `nil`-map check. -/
def effectiveMaxLines (toolName : GoStr) (lineLimits : Option LimitMap) : Nat :=
  let fromCaller :=
    match lineLimits with
    | some ll => (mapLookup ll toolName).getD 0
    | none => 0
  if fromCaller = 0 then (DefaultToolLineLimits toolName).getD 0 else fromCaller

/-- `TruncateToolOutput` from `truncation.go`: the full two-step pipeline. -/
def TruncateToolOutput (output : GoStr) (toolName : GoStr) (charLimits : LimitMap)
    (lineLimits : Option LimitMap) : GoStr :=
  let result := TruncateOutput output (effectiveMaxChars toolName charLimits)
    (effectiveMode toolName)
  let maxLines := effectiveMaxLines toolName lineLimits
  if 0 < maxLines then TruncateLines result maxLines else result

/-! ## Execution environment (`LocalExecutionEnvironment`, env filtering) -/

/-- Model of Go `strings.ToUpper` (exact on ASCII data). -/
def goToUpper (s : GoStr) : GoStr := s.map Char.toUpper

/-- Model of Go `strings.HasSuffix(s, pat)`. -/
def goEndsWith (s pat : GoStr) : Bool := goStartsWith s.reverse pat.reverse

/-- `sensitiveEnvPatterns`: case-insensitive suffixes excluded by default. -/
def sensitiveEnvPatterns : List GoStr :=
  [ "_API_KEY".toList, "_SECRET".toList, "_TOKEN".toList, "_PASSWORD".toList,
    "_CREDENTIAL".toList ]

/-- `safeEnvVars`: the always-kept allow-list, as the Go `map[string]bool` lookup. -/
def safeEnvVars (name : GoStr) : Bool :=
  [ "PATH".toList, "HOME".toList, "USER".toList, "SHELL".toList,
    "LANG".toList, "TERM".toList, "TMPDIR".toList,
    "GOPATH".toList, "GOROOT".toList, "CARGO_HOME".toList,
    "NVM_DIR".toList, "RUSTUP_HOME".toList, "PYENV_ROOT".toList,
    "XDG_CONFIG_HOME".toList, "XDG_DATA_HOME".toList,
    "XDG_CACHE_HOME".toList ].contains name

/-- `isSensitiveEnvVar` from the execution-environment source. -/
def isSensitiveEnvVar (name : GoStr) : Bool :=
  sensitiveEnvPatterns.any (fun pat => goEndsWith (goToUpper name) pat)

/-- Model of Go `strings.SplitN(s, "=", 2)`, returning the two parts when `s`
contains `'='` (the only case in which `len(parts) == 2`). -/
def splitEq2 (s : GoStr) : Option (GoStr × GoStr) :=
  match s.findIdx? (fun c => decide (c = '=')) with
  | some i => some (s.take i, s.drop (i + 1))
  | none => none

/-- The filter condition applied per entry by `filterEnvironment`
(malformed entries without `'='` are skipped). -/
def keepEnvVar (env : GoStr) : Bool :=
  match splitEq2 env with
  | none => false
  | some (name, _) => safeEnvVars name || !isSensitiveEnvVar name

/-- `filterEnvironment`, with `os.Environ()` supplied as the `environ` list. -/
def filterEnvironment (environ : List GoStr) : List GoStr :=
  environ.filter keepEnvVar

/-- The child environment built by `ExecCommand`: the filtered process
environment followed by caller-supplied overrides. -/
def execCommandEnv (environ : List GoStr) (envVars : List (GoStr × GoStr)) : List GoStr :=
  filterEnvironment environ ++ envVars.map (fun kv => kv.1 ++ ['='] ++ kv.2)

/-- One formatted line `"<n+1> | <line>\n"` of a `ReadFile` result. -/
def numberLine (i : Nat) (line : GoStr) : GoStr :=
  natToChars (i + 1) ++ " | ".toList ++ line ++ ['\n']

/-- `LocalExecutionEnvironment.ReadFile` applied to file contents `data`:
1-based line numbering with `offset`/`limit` selection. -/
def ReadFile (data : GoStr) (offset limit : Int) : GoStr :=
  let lines := splitChar '\n' data
  let startLine : Nat := if 0 < offset then (offset - 1).toNat else 0
  if lines.length ≤ startLine then []
  else
    let endLine : Nat :=
      if 0 < limit ∧ startLine + limit.toNat < lines.length then startLine + limit.toNat
      else lines.length
    (List.range' startLine (endLine - startLine)).foldl
      (fun acc i => acc ++ numberLine i (lines.getD i [])) []

/-- Number of numbered lines in a `ReadFile` result (each emitted line ends
with `'\n'`, so it is one less than the number of `'\n'`-separated fields). -/
def numberedLineCount (out : GoStr) : Nat := (splitChar '\n' out).length - 1

/-! ## Core tools (`agentloop/core_tools.go`) -/

/-- Per split field of `readRawFile`: strip the `"N | "` numbering, keep
unnumbered nonempty lines, skip empty ones. -/
def stripEntry (line : GoStr) : List GoStr :=
  match goIndexOf line (" | ".toList) with
  | some idx => [line.drop (idx + 3)]
  | none => if line = [] then [] else [line]

/-- `readRawFile` from `core_tools.go`, applied to the numbered text returned
by `ReadFile(path, 0, 0)`: reconstructs the raw file content. -/
def readRawFile (numbered : GoStr) : GoStr :=
  goJoin ['\n'] ((splitChar '\n' numbered).foldl (fun acc line => acc ++ stripEntry line) [])

/-- The `edit_file` tool executor from `registerEditFile`, given the current
file content; returns an error message or `(newContent, successMessage)`. -/
def editFileExec (fileContent oldString newString : GoStr) (replaceAll : Bool)
    (filePath : GoStr) : Except GoStr (GoStr × GoStr) :=
  let rawContent := readRawFile (ReadFile fileContent 0 0)
  let count := goCount rawContent oldString
  if count = 0 then .error ("old_string not found in ".toList ++ filePath)
  else if 1 < count ∧ replaceAll = false then
    .error ("old_string found ".toList ++ natToChars count ++ " times in ".toList ++
      filePath ++ ". Provide more context to make it unique, or set replace_all=true".toList)
  else
    let newContent :=
      if replaceAll then goReplaceAll rawContent oldString newString
      else goReplace1 rawContent oldString newString
    let replacements := if replaceAll then count else 1
    .ok (newContent, "Successfully replaced ".toList ++ natToChars replacements ++
      " occurrence(s) in ".toList ++ filePath)

/-- The timeout computation of the `shell` tool executor (`registerShell`):
`GetIntArg` yields 0 for a missing `timeout_ms`, non-positive values fall back
to the default, values above the maximum are capped. -/
def shellTimeout (timeoutArg : Option Int) (defaultTimeoutMs maxTimeoutMs : Int) : Int :=
  let timeoutMs := timeoutArg.getD 0
  let t := if timeoutMs ≤ 0 then defaultTimeoutMs else timeoutMs
  if maxTimeoutMs < t then maxTimeoutMs else t

/-- The `read_file` tool executor from `registerReadFile`: substitutes the
2000-line default when the `limit` argument is 0 or missing, then delegates
to the environment `ReadFile`. -/
def readFileToolExec (data : GoStr) (offsetArg limitArg : Option Int) : GoStr :=
  let offset := offsetArg.getD 0
  let limit0 := limitArg.getD 0
  let limit := if limit0 = 0 then 2000 else limit0
  ReadFile data offset limit

/-! ## Data model (`agentloop/types` source: Turn, ToolCall, ToolResult)

Timestamps and token-usage metadata are elided: no stated property reads them.
-/

/-- `unifiedllm.ToolCall`: id, name and raw argument JSON. -/
structure ToolCall where
  id : GoStr
  name : GoStr
  arguments : GoStr
deriving DecidableEq

/-- `unifiedllm.ToolResult`: call id, content string, error flag. -/
structure ToolResult where
  toolCallId : GoStr
  content : GoStr
  isError : Bool
deriving DecidableEq

/-- `Turn`, the tagged conversation entry. -/
inductive Turn
  | user (content : GoStr)
  | assistant (content : GoStr) (toolCalls : List ToolCall) (reasoning : GoStr)
      (responseId : GoStr)
  | toolResults (results : List ToolResult)
  | system (content : GoStr)
  | steering (content : GoStr)
deriving DecidableEq

/-! ## Loop detection (`agentloop/profile_gemini.go`)

`toolCallSignature` formats `name ++ ":" ++ hex(sha256(args)[:8])`; the hash
part is abstracted as a function parameter (`crypto/sha256` is Go standard
library, and no stated property depends on its internals).
-/

/-- `toolCallSignature`: `fmt.Sprintf("%s:%x", name, sha256(args)[:8])`. -/
def toolCallSignature (hash : GoStr → GoStr) (name arguments : GoStr) : GoStr :=
  name ++ [':'] ++ hash arguments

/-- All tool-call signatures of a history in chronological order. -/
def allSignatures (hash : GoStr → GoStr) (history : List Turn) : List GoStr :=
  history.flatMap (fun t =>
    match t with
    | .assistant _ toolCalls _ _ =>
      toolCalls.map (fun tc => toolCallSignature hash tc.name tc.arguments)
    | _ => [])

/-- `extractToolCallSignatures`: the backward walk collects the most recent
`count` signatures newest-first and reverses, i.e. the last `count` entries of
the chronological signature list. -/
def extractToolCallSignatures (hash : GoStr → GoStr) (history : List Turn)
    (count : Nat) : List GoStr :=
  ((allSignatures hash history).reverse.take count).reverse

/-- The last `w` tool-call signatures of a history, in chronological order
(the window `DetectLoop` inspects). -/
def lastWindow (hash : GoStr → GoStr) (history : List Turn) (w : Nat) : List GoStr :=
  (allSignatures hash history).drop ((allSignatures hash history).length - w)

/-- The inner check of `DetectLoop` for one block starting at `i`:
`sigs[i+j] == pattern[j]` for every `j < patternLen`. -/
def blockOk (sigs pattern : List GoStr) (i patternLen : Nat) : Bool :=
  (List.range patternLen).all (fun j => decide (sigs.getD (i + j) [] = pattern.getD j []))

/-- The per-`patternLen` loop body of `DetectLoop`: every block of
`patternLen` signatures beyond the first equals the first
(`i = patternLen, 2*patternLen, … < windowSize`). -/
def windowRepeats (sigs : List GoStr) (windowSize patternLen : Nat) : Bool :=
  ((List.range (windowSize / patternLen)).drop 1).all
    (fun b => blockOk sigs (sigs.take patternLen) (b * patternLen) patternLen)

/-- `DetectLoop` from `profile_gemini.go`. -/
def DetectLoop (hash : GoStr → GoStr) (history : List Turn) (windowSize : Nat) : Bool :=
  let sigs := extractToolCallSignatures hash history windowSize
  if sigs.length < windowSize then false
  else
    [1, 2, 3].any (fun patternLen =>
      windowSize % patternLen = 0 && windowRepeats sigs windowSize patternLen)

/-! ## Session configuration and subagents (`session.go`, `subagent.go`) -/

/-- `SessionState`. -/
inductive SessionState
  | idle
  | processing
  | awaitingInput
  | closed
deriving DecidableEq

/-- `SessionConfig`.  The two limit maps keep their Go shapes (`LimitMap`
association lists; `toolLineLimits` is `Option`-wrapped because the source
checks that map against `nil`). -/
structure SessionConfig where
  maxTurns : Nat
  maxToolRoundsPerInput : Nat
  defaultCommandTimeoutMs : Int
  maxCommandTimeoutMs : Int
  reasoningEffort : GoStr
  toolOutputLimits : LimitMap
  toolLineLimits : Option LimitMap
  enableLoopDetection : Bool
  loopDetectionWindow : Nat
  maxSubagentDepth : Nat
  userInstructions : GoStr
  subagentDepth : Nat
deriving DecidableEq

/-- `DefaultSessionConfig` (unset Go fields take their zero values). -/
def DefaultSessionConfig : SessionConfig where
  maxTurns := 0
  maxToolRoundsPerInput := 200
  defaultCommandTimeoutMs := 10000
  maxCommandTimeoutMs := 600000
  reasoningEffort := []
  toolOutputLimits := []
  toolLineLimits := none
  enableLoopDetection := true
  loopDetectionWindow := 10
  maxSubagentDepth := 1
  userInstructions := []
  subagentDepth := 0

/-- `SubAgentManager.CanSpawn`. -/
def CanSpawn (maxDepth depth : Nat) : Bool := decide (depth < maxDepth)

/-- The child `SessionConfig` built inside `SubAgentManager.Spawn`. -/
def SpawnChildConfig (maxDepth depth : Nat) (config : Option SessionConfig) :
    SessionConfig :=
  let subConfig := config.getD DefaultSessionConfig
  { subConfig with
    maxTurns := 50
    maxSubagentDepth := maxDepth
    subagentDepth := depth + 1 }

/-- `SubAgentManager.Spawn`, restricted to the child-configuration outcome. -/
def Spawn (maxDepth depth : Nat) (config : Option SessionConfig) :
    Except GoStr SessionConfig :=
  if CanSpawn maxDepth depth then .ok (SpawnChildConfig maxDepth depth config)
  else .error ("maximum subagent depth (".toList ++ natToChars maxDepth ++ ") reached".toList)

/-- The `SessionConfig` assembled by the `spawn_agent` tool executor before it
calls `Spawn` (a positive `max_turns` argument overrides the default). -/
def spawnAgentToolConfig (maxTurnsArg : Option Int) : SessionConfig :=
  match maxTurnsArg with
  | some mt =>
    if 0 < mt then { DefaultSessionConfig with maxTurns := mt.toNat }
    else DefaultSessionConfig
  | none => DefaultSessionConfig

/-! ## The session orchestrator (`session.go`)

The observable session state is `{state, history, events}`.  The LLM, the
steering queue contents at each drain point, the abort flag and context
cancellation at each loop iteration are oracles (`RoundOracle`,
`InputOracle`); event payloads are elided, only kinds are recorded. -/

/-- `EventKind`. -/
inductive EventKind
  | sessionStart
  | sessionEnd
  | userInput
  | assistantTextStart
  | assistantTextDelta
  | assistantTextEnd
  | toolCallStart
  | toolCallOutputDelta
  | toolCallEnd
  | steeringInjected
  | turnLimit
  | loopDetection
  | warning
  | error
deriving DecidableEq

/-- The observable per-session state. -/
structure SessionModel where
  state : SessionState
  history : List Turn
  events : List EventKind
deriving DecidableEq

/-- `EventEmitter.Emit` (payloads elided; dropping on overflow only loses
events, which no stated property counts on). -/
def SessionModel.emit (s : SessionModel) (k : EventKind) : SessionModel :=
  { s with events := s.events ++ [k] }

/-- `s.history = append(s.history, t)`. -/
def SessionModel.appendTurn (s : SessionModel) (t : Turn) : SessionModel :=
  { s with history := s.history ++ [t] }

/-- The tool registry as seen by dispatch: name to executor. -/
abbrev ToolRegistry := GoStr → Option (GoStr → Except GoStr GoStr)

/-- `executeSingleTool`: lookup, execute, truncate; every branch carries the
call id through to `ToolCallID`. -/
def executeSingleTool (registry : ToolRegistry) (charLimits : LimitMap)
    (lineLimits : Option LimitMap) (tc : ToolCall) : ToolResult :=
  match registry tc.name with
  | none =>
    { toolCallId := tc.id, content := "Unknown tool: ".toList ++ tc.name, isError := true }
  | some executor =>
    match executor tc.arguments with
    | .error e =>
      { toolCallId := tc.id,
        content := "Tool error (".toList ++ tc.name ++ "): ".toList ++ e, isError := true }
    | .ok raw =>
      { toolCallId := tc.id, content := TruncateToolOutput raw tc.name charLimits lineLimits,
        isError := false }

/-- `executeToolCalls`: parallel and sequential dispatch both fill a result
array indexed by call position. -/
def executeToolCalls (registry : ToolRegistry) (charLimits : LimitMap)
    (lineLimits : Option LimitMap) (toolCalls : List ToolCall) : List ToolResult :=
  toolCalls.map (executeSingleTool registry charLimits lineLimits)

/-- `countTurns`: user plus assistant turns. -/
def countTurns (history : List Turn) : Nat :=
  (history.filter (fun t =>
    match t with
    | .user _ => true
    | .assistant _ _ _ _ => true
    | _ => false)).length

/-- `drainSteering`, with the queue contents passed in. -/
def drainSteering (st : SessionModel) (messages : List GoStr) : SessionModel :=
  messages.foldl (fun acc msg => (acc.appendTurn (.steering msg)).emit .steeringInjected) st

/-- The steering message injected on loop detection. -/
def loopWarning (window : Nat) : GoStr :=
  "Loop detected: the last ".toList ++ natToChars window ++
    " tool calls follow a repeating pattern. Try a different approach.".toList

/-- `Turn.TextContent`. -/
def Turn.textContent : Turn → GoStr
  | .user c => c
  | .assistant c _ _ _ => c
  | .system c => c
  | .steering c => c
  | .toolResults _ => []

/-- Characters contributed by one turn in `checkContextUsage`. -/
def turnChars (t : Turn) : Nat :=
  t.textContent.length +
    (match t with
     | .toolResults rs => (rs.map (fun r => r.content.length)).sum
     | _ => 0)

/-- `checkContextUsage` (the float factor 0.8 is modelled exactly as 4/5;
only the emitted kind matters here). -/
def checkContextUsage (contextWindow : Nat) (st : SessionModel) : SessionModel :=
  let totalChars := (st.history.map turnChars).sum
  let approxTokens := totalChars / 4
  let threshold := contextWindow * 4 / 5
  if threshold < approxTokens then st.emit .warning else st

/-- One LLM response as recorded into an assistant turn. -/
structure LLMResponse where
  text : GoStr
  toolCalls : List ToolCall
  reasoning : GoStr
  responseId : GoStr

/-- Outcome of one `llmClient.Complete` call. -/
inductive LLMOutcome
  | failure (retryable : Bool) (message : GoStr)
  | success (response : LLMResponse)

/-- Oracle for one iteration of the per-input loop. -/
structure RoundOracle where
  aborted : Bool
  cancelled : Bool
  outcome : LLMOutcome
  steerAfter : List GoStr

/-- How the per-input loop ended. -/
inductive LoopExit
  | broke
  | errored (message : GoStr)

/-- The `for` loop of `processInput`, one `RoundOracle` per iteration (an
exhausted oracle list simply stops observing the run). -/
def runRounds (cfg : SessionConfig) (registry : ToolRegistry) (hash : GoStr → GoStr)
    (contextWindow : Nat) :
    Nat → List RoundOracle → SessionModel → SessionModel × LoopExit
  | _, [], st => (st, .broke)
  | roundCount, r :: rest, st =>
    if cfg.maxToolRoundsPerInput ≤ roundCount then (st.emit .turnLimit, .broke)
    else if 0 < cfg.maxTurns ∧ cfg.maxTurns ≤ countTurns st.history then
      (st.emit .turnLimit, .broke)
    else if r.aborted then (st, .broke)
    else if r.cancelled then
      (({ st with state := .closed }).emit .error, .errored ("context cancelled".toList))
    else
      let st1 := st.emit .assistantTextStart
      match r.outcome with
      | .failure retryable msg =>
        if retryable then (st1.emit .error, .errored msg)
        else (({ st1 with state := .closed }).emit .error, .errored msg)
      | .success resp =>
        let st2 := (st1.appendTurn
          (.assistant resp.text resp.toolCalls resp.reasoning resp.responseId)).emit
          .assistantTextEnd
        let st3 := checkContextUsage contextWindow st2
        if resp.toolCalls = [] then (st3, .broke)
        else
          let results := executeToolCalls registry cfg.toolOutputLimits cfg.toolLineLimits
            resp.toolCalls
          let st4 := { st3 with
            events := st3.events ++ resp.toolCalls.flatMap
              (fun _ => ([.toolCallStart, .toolCallEnd] : List EventKind)) }
          let st5 := st4.appendTurn (.toolResults results)
          let st6 := drainSteering st5 r.steerAfter
          let st7 :=
            if cfg.enableLoopDetection && DetectLoop hash st6.history cfg.loopDetectionWindow then
              (st6.appendTurn (.steering (loopWarning cfg.loopDetectionWindow))).emit
                .loopDetection
            else st6
          runRounds cfg registry hash contextWindow (roundCount + 1) rest st7

/-- Oracle for one `processInput` activation. -/
structure InputOracle where
  initialSteer : List GoStr
  rounds : List RoundOracle

/-- `processInput` including the tail recursion into the follow-up queue. -/
def processInput (cfg : SessionConfig) (registry : ToolRegistry) (hash : GoStr → GoStr)
    (contextWindow : Nat) :
    SessionModel → GoStr → InputOracle → List (GoStr × InputOracle) →
      SessionModel × Option GoStr
  | st, input, io, followups =>
    let st1 := (st.appendTurn (.user input)).emit .userInput
    let st2 := drainSteering st1 io.initialSteer
    match runRounds cfg registry hash contextWindow 0 io.rounds st2 with
    | (st3, .errored msg) => (st3, some msg)
    | (st3, .broke) =>
      match followups with
      | [] => (({ st3 with state := .idle }).emit .sessionEnd, none)
      | (next, nio) :: rest => processInput cfg registry hash contextWindow st3 next nio rest

/-- `Session.Submit`: reject closed sessions, else transition to Processing
and run `processInput`. -/
def Submit (cfg : SessionConfig) (registry : ToolRegistry) (hash : GoStr → GoStr)
    (contextWindow : Nat) (st : SessionModel) (input : GoStr) (io : InputOracle)
    (followups : List (GoStr × InputOracle)) : SessionModel × Option GoStr :=
  if st.state = .closed then (st, some ("session is closed".toList))
  else
    processInput cfg registry hash contextWindow { st with state := .processing }
      input io followups

/-- Tool results match tool calls pairwise: same length, and the result at
every position carries the id of the call at that position. -/
def ResultsMatch (toolCalls : List ToolCall) (results : List ToolResult) : Prop :=
  results.length = toolCalls.length ∧
    ∀ (i : Nat) (tc : ToolCall) (res : ToolResult),
      toolCalls[i]? = some tc → results[i]? = some res → res.toolCallId = tc.id

/-- The history invariant of claim C1: every assistant turn with a non-empty
tool-call list is immediately followed by a matching tool-results turn, and
every tool-results turn immediately follows such an assistant turn (so there
is exactly one tool-results turn before any further assistant turn). -/
def SessionInvariant (hist : List Turn) : Prop :=
  (∀ i c tcs r rid, hist[i]? = some (.assistant c tcs r rid) → tcs ≠ [] →
    ∃ rs, hist[i + 1]? = some (.toolResults rs) ∧ ResultsMatch tcs rs) ∧
  (∀ i rs, hist[i]? = some (.toolResults rs) →
    ∃ j c tcs r rid, i = j + 1 ∧ hist[j]? = some (.assistant c tcs r rid) ∧ tcs ≠ [])

/-! ## Theorems -/

/-- C9: for every `Spawn` call that succeeds (depth below the maximum),
whatever `SessionConfig` is passed in — including one assembled by the
`spawn_agent` tool from a caller-supplied `max_turns` — the child session
configuration has `maxTurns = 50`, subagent depth `parent + 1`, and the
parent's `maxSubagentDepth`. -/
theorem spawn_child_config_spec (maxDepth depth : Nat) (config : Option SessionConfig)
    (h : depth < maxDepth) :
    Spawn maxDepth depth config = .ok (SpawnChildConfig maxDepth depth config) ∧
    (SpawnChildConfig maxDepth depth config).maxTurns = 50 ∧
    (SpawnChildConfig maxDepth depth config).subagentDepth = depth + 1 ∧
    (SpawnChildConfig maxDepth depth config).maxSubagentDepth = maxDepth := by
  refine ⟨?_, rfl, rfl, rfl⟩
  simp [Spawn, CanSpawn, h]

/-- Witness for C9: a `spawn_agent` tool invocation requesting `max_turns = 7`
still yields a child with `maxTurns = 50`. -/
theorem spawn_child_config_spec_w :
    Spawn 1 0 (some (spawnAgentToolConfig (some 7))) =
      .ok (SpawnChildConfig 1 0 (some (spawnAgentToolConfig (some 7)))) ∧
    (SpawnChildConfig 1 0 (some (spawnAgentToolConfig (some 7)))).maxTurns = 50 ∧
    (SpawnChildConfig 1 0 (some (spawnAgentToolConfig (some 7)))).subagentDepth = 0 + 1 ∧
    (SpawnChildConfig 1 0 (some (spawnAgentToolConfig (some 7)))).maxSubagentDepth = 1 :=
  spawn_child_config_spec 1 0 (some (spawnAgentToolConfig (some 7))) (by decide)

/-- C10: `Submit` on a closed session returns the "session is closed" error
and leaves the session unchanged: same history, same events, state still
closed. -/
theorem submit_closed_session (cfg : SessionConfig) (registry : ToolRegistry)
    (hash : GoStr → GoStr) (contextWindow : Nat) (st : SessionModel) (input : GoStr)
    (io : InputOracle) (followups : List (GoStr × InputOracle))
    (h : st.state = .closed) :
    Submit cfg registry hash contextWindow st input io followups =
      (st, some ("session is closed".toList)) ∧
    (Submit cfg registry hash contextWindow st input io followups).1.history = st.history ∧
    (Submit cfg registry hash contextWindow st input io followups).1.events = st.events ∧
    (Submit cfg registry hash contextWindow st input io followups).1.state = .closed := by
  simp [Submit, h]

/-- Witness for C10: a concrete closed session is rejected unchanged. -/
theorem submit_closed_session_w :
    Submit DefaultSessionConfig (fun _ => none) (fun _ => []) 1048576
        ⟨.closed, [], []⟩ ("hi".toList) ⟨[], []⟩ [] =
      (⟨.closed, [], []⟩, some ("session is closed".toList)) ∧
    (Submit DefaultSessionConfig (fun _ => none) (fun _ => []) 1048576
        ⟨.closed, [], []⟩ ("hi".toList) ⟨[], []⟩ []).1.history = ([] : List Turn) ∧
    (Submit DefaultSessionConfig (fun _ => none) (fun _ => []) 1048576
        ⟨.closed, [], []⟩ ("hi".toList) ⟨[], []⟩ []).1.events = ([] : List EventKind) ∧
    (Submit DefaultSessionConfig (fun _ => none) (fun _ => []) 1048576
        ⟨.closed, [], []⟩ ("hi".toList) ⟨[], []⟩ []).1.state = .closed :=
  submit_closed_session DefaultSessionConfig (fun _ => none) (fun _ => []) 1048576
    ⟨.closed, [], []⟩ ("hi".toList) ⟨[], []⟩ [] rfl

/-- C5 counterexample: the shell tool does not clamp a requested timeout up to
the default: with `timeout_ms = 1`, default 10000 and maximum 600000, the
effective timeout is 1, strictly below the default. -/
theorem shell_timeout_below_default_cx :
    shellTimeout (some 1) 10000 600000 = 1 ∧
      ¬ (10000 ≤ shellTimeout (some 1) 10000 600000) := by decide

/-- C5 (amended): the effective shell timeout is positive and at most
`maxTimeoutMs`; a missing or non-positive `timeout_ms` is replaced by the
default, a positive request at most the maximum is used as given (even when
below the default), and a request above the maximum is capped. -/
theorem shell_timeout_spec (timeoutArg : Option Int) (defaultTimeoutMs maxTimeoutMs : Int)
    (hd : 0 < defaultTimeoutMs) (hdm : defaultTimeoutMs ≤ maxTimeoutMs) :
    0 < shellTimeout timeoutArg defaultTimeoutMs maxTimeoutMs ∧
    shellTimeout timeoutArg defaultTimeoutMs maxTimeoutMs ≤ maxTimeoutMs ∧
    shellTimeout none defaultTimeoutMs maxTimeoutMs = defaultTimeoutMs ∧
    (∀ t : Int, t ≤ 0 → shellTimeout (some t) defaultTimeoutMs maxTimeoutMs = defaultTimeoutMs) ∧
    (∀ t : Int, 0 < t → t ≤ maxTimeoutMs →
      shellTimeout (some t) defaultTimeoutMs maxTimeoutMs = t) ∧
    (∀ t : Int, maxTimeoutMs < t →
      shellTimeout (some t) defaultTimeoutMs maxTimeoutMs = maxTimeoutMs) := by
  refine ⟨?_, ?_, ?_, ?_, ?_, ?_⟩
  · cases timeoutArg <;> (simp [shellTimeout]; intros; omega)
  · cases timeoutArg <;> (simp [shellTimeout]; intros; omega)
  · simp [shellTimeout]; omega
  · intro t ht; simp [shellTimeout]; intros; omega
  · intro t ht1 ht2; simp [shellTimeout]; intros; omega
  · intro t ht; simp [shellTimeout]; omega

/-- Witness for C5 (amended), at the gemini-cli defaults 10000/600000. -/
theorem shell_timeout_spec_w :
    0 < shellTimeout (some 1) 10000 600000 ∧
    shellTimeout (some 1) 10000 600000 ≤ 600000 ∧
    shellTimeout none 10000 600000 = 10000 ∧
    (∀ t : Int, t ≤ 0 → shellTimeout (some t) 10000 600000 = 10000) ∧
    (∀ t : Int, 0 < t → t ≤ 600000 → shellTimeout (some t) 10000 600000 = t) ∧
    (∀ t : Int, 600000 < t → shellTimeout (some t) 10000 600000 = 600000) :=
  shell_timeout_spec (some 1) 10000 600000 (by decide) (by decide)

/-- C6: for every string, every positive `maxChars` and both modes, the
truncated length is bounded by `maxChars` plus the length of the inserted
marker; `head_tail` keeps the first and last `maxChars / 2` characters around
its marker, and `tail` keeps the last `maxChars` characters after its marker. -/
theorem truncate_output_spec (output : GoStr) (maxChars : Nat) (mode : TruncationMode)
    (hpos : 0 < maxChars) :
    (mode = TruncateHeadTail →
      (TruncateOutput output maxChars mode).length ≤
        maxChars + (headTailMarker (output.length - maxChars)).length ∧
      (maxChars < output.length →
        TruncateOutput output maxChars mode =
          output.take (maxChars / 2) ++ headTailMarker (output.length - maxChars) ++
            output.drop (output.length - maxChars / 2))) ∧
    (mode = TruncateTail →
      (TruncateOutput output maxChars mode).length ≤
        maxChars + (tailMarker (output.length - maxChars)).length ∧
      (maxChars < output.length →
        TruncateOutput output maxChars mode =
          tailMarker (output.length - maxChars) ++
            output.drop (output.length - maxChars))) := by
  constructor
  · rintro rfl
    by_cases hle : output.length ≤ maxChars
    · refine ⟨?_, fun hlt => absurd hlt (by omega)⟩
      simp only [TruncateOutput, if_pos hle]
      omega
    · have heq : TruncateOutput output maxChars TruncateHeadTail =
          output.take (maxChars / 2) ++ headTailMarker (output.length - maxChars) ++
            output.drop (output.length - maxChars / 2) := by
        simp [TruncateOutput, hle]
      refine ⟨?_, fun _ => heq⟩
      rw [heq]
      simp only [List.length_append, List.length_take, List.length_drop]
      omega
  · rintro rfl
    have hne : TruncateTail ≠ TruncateHeadTail := by decide
    by_cases hle : output.length ≤ maxChars
    · refine ⟨?_, fun hlt => absurd hlt (by omega)⟩
      simp only [TruncateOutput, if_pos hle]
      omega
    · have heq : TruncateOutput output maxChars TruncateTail =
          tailMarker (output.length - maxChars) ++
            output.drop (output.length - maxChars) := by
        simp [TruncateOutput, hle, hne]
      refine ⟨?_, fun _ => heq⟩
      rw [heq]
      simp only [List.length_append, List.length_drop]
      omega

/-- Witness for C6 at `maxChars = 4`, both modes, on a 10-character string. -/
theorem truncate_output_spec_w :
    (TruncateHeadTail = TruncateHeadTail →
      (TruncateOutput ("abcdefghij".toList) 4 TruncateHeadTail).length ≤
        4 + (headTailMarker (("abcdefghij".toList).length - 4)).length ∧
      (4 < ("abcdefghij".toList).length →
        TruncateOutput ("abcdefghij".toList) 4 TruncateHeadTail =
          ("abcdefghij".toList).take (4 / 2) ++
            headTailMarker (("abcdefghij".toList).length - 4) ++
            ("abcdefghij".toList).drop (("abcdefghij".toList).length - 4 / 2))) ∧
    (TruncateHeadTail = TruncateTail →
      (TruncateOutput ("abcdefghij".toList) 4 TruncateHeadTail).length ≤
        4 + (tailMarker (("abcdefghij".toList).length - 4)).length ∧
      (4 < ("abcdefghij".toList).length →
        TruncateOutput ("abcdefghij".toList) 4 TruncateHeadTail =
          tailMarker (("abcdefghij".toList).length - 4) ++
            ("abcdefghij".toList).drop (("abcdefghij".toList).length - 4))) :=
  truncate_output_spec ("abcdefghij".toList) 4 TruncateHeadTail (by decide)

/-- C2 counterexample: the truncation pipeline is not idempotent.  With the
caller-configured char limit 5 for tool `mytool` (head-tail mode, no line
limit), a 10-character input truncates to a string longer than 5, so a second
pass truncates again and yields a different string. -/
theorem truncate_tool_output_not_idempotent_cx :
    TruncateToolOutput (TruncateToolOutput ("abcdefghij".toList) ("mytool".toList)
        [(("mytool".toList), 5)] none) ("mytool".toList) [(("mytool".toList), 5)] none ≠
      TruncateToolOutput ("abcdefghij".toList) ("mytool".toList)
        [(("mytool".toList), 5)] none := by
  decide

/-- C2 (amended): the truncation pipeline is the identity — and hence
idempotent — on outputs already within the tool's effective character limit
and line limit. -/
theorem truncate_tool_output_noop (output toolName : GoStr) (charLimits : LimitMap)
    (lineLimits : Option LimitMap)
    (hc : output.length ≤ effectiveMaxChars toolName charLimits)
    (hl : (splitChar '\n' output).length ≤ effectiveMaxLines toolName lineLimits ∨
      effectiveMaxLines toolName lineLimits = 0) :
    TruncateToolOutput output toolName charLimits lineLimits = output ∧
    TruncateToolOutput (TruncateToolOutput output toolName charLimits lineLimits)
        toolName charLimits lineLimits =
      TruncateToolOutput output toolName charLimits lineLimits := by
  have h1 : TruncateOutput output (effectiveMaxChars toolName charLimits)
      (effectiveMode toolName) = output := by
    simp [TruncateOutput, hc]
  have h2 : TruncateToolOutput output toolName charLimits lineLimits = output := by
    simp only [TruncateToolOutput, h1]
    rcases hl with hl | hl
    · split_ifs with hml
      · simp [TruncateLines, hl]
      · rfl
    · simp [hl]
  exact ⟨h2, by simp [h2]⟩

/-- Witness for C2 (amended): a two-character `shell` output is untouched. -/
theorem truncate_tool_output_noop_w :
    TruncateToolOutput ("hi".toList) ("shell".toList) [] none = "hi".toList ∧
    TruncateToolOutput (TruncateToolOutput ("hi".toList) ("shell".toList) [] none)
        ("shell".toList) [] none =
      TruncateToolOutput ("hi".toList) ("shell".toList) [] none :=
  truncate_tool_output_noop ("hi".toList) ("shell".toList) [] none (by decide)
    (Or.inl (by decide))

/-- C4: for an `ExecCommand` invocation without caller env overrides, every
variable in the child environment whose name ends (case-insensitively) in a
sensitive suffix is on the safe allow-list, and every well-formed parent
variable whose name is on the allow-list is kept. -/
theorem exec_env_scrubbing (environ : List GoStr) :
    (∀ e ∈ execCommandEnv environ [], ∀ name rest, splitEq2 e = some (name, rest) →
      isSensitiveEnvVar name = true → safeEnvVars name = true) ∧
    (∀ e ∈ environ, ∀ name rest, splitEq2 e = some (name, rest) →
      safeEnvVars name = true → e ∈ execCommandEnv environ []) := by
  constructor
  · intro e he name rest hsplit hsens
    simp only [execCommandEnv, List.map_nil, List.append_nil, filterEnvironment,
      List.mem_filter] at he
    have hk := he.2
    unfold keepEnvVar at hk
    rw [hsplit] at hk
    simp [hsens] at hk
    exact hk
  · intro e he name rest hsplit hsafe
    simp only [execCommandEnv, List.map_nil, List.append_nil, filterEnvironment,
      List.mem_filter]
    refine ⟨he, ?_⟩
    unfold keepEnvVar
    rw [hsplit]
    simp [hsafe]

/-- Witness for C4: with a parent environment containing `MY_API_KEY=z` and
`PATH=/bin`, the allow-listed `PATH` entry is kept. -/
theorem exec_env_scrubbing_w :
    "PATH=/bin".toList ∈ execCommandEnv [ "MY_API_KEY=z".toList, "PATH=/bin".toList ] [] :=
  (exec_env_scrubbing [ "MY_API_KEY=z".toList, "PATH=/bin".toList ]).2
    ("PATH=/bin".toList) (by decide) ("PATH".toList) ("/bin".toList) (by decide) (by decide)

/-- The backward signature walk of `extractToolCallSignatures` collects
exactly the last `count` signatures in chronological order. -/
theorem extract_eq_lastWindow (hash : GoStr → GoStr) (history : List Turn) (count : Nat) :
    extractToolCallSignatures hash history count = lastWindow hash history count := by
  unfold extractToolCallSignatures lastWindow
  rw [← List.rtake_eq_reverse_take_reverse]
  rfl

/-- `getD` at an in-range index is `getElem`. -/
theorem getD_eq_getElem_of_lt (l : List GoStr) (i : Nat) (h : i < l.length) :
    l.getD i [] = l[i] := by
  rw [List.getD_eq_getElem?_getD, List.getElem?_eq_getElem h]
  rfl

/-- `getD` commutes with `take` below the cut. -/
theorem take_getD (l : List GoStr) (p j : Nat) (hj : j < p) :
    (l.take p).getD j [] = l.getD j [] := by
  rw [List.getD_eq_getElem?_getD, List.getElem?_take, if_pos hj,
    ← List.getD_eq_getElem?_getD]

/-- Length of `k` concatenated copies of `t`. -/
theorem flatten_replicate_length (k : Nat) (t : List GoStr) :
    (List.replicate k t).flatten.length = k * t.length := by
  induction k with
  | zero => simp
  | succ k ih =>
    rw [List.replicate_succ, List.flatten_cons]
    simp [ih, Nat.succ_mul, Nat.add_comm]

/-- Indexing into `k` concatenated copies of a `p`-element list wraps mod `p`. -/
theorem flatten_replicate_getD (t : List GoStr) (k i p : Nat) (hplen : t.length = p)
    (hi : i < k * p) : (List.replicate k t).flatten.getD i [] = t.getD (i % p) [] := by
  induction k generalizing i with
  | zero => omega
  | succ k ih =>
    rw [List.replicate_succ, List.flatten_cons]
    rcases lt_or_ge i p with hlt | hge
    · rw [List.getD_eq_getElem?_getD, List.getElem?_append,
        if_pos (by omega : i < t.length), ← List.getD_eq_getElem?_getD,
        Nat.mod_eq_of_lt hlt]
    · rcases Nat.eq_zero_or_pos p with rfl | hp0
      · simp at hi
      have hi' : i - p < k * p := by
        have h2 : i < k * p + p := by rw [← Nat.succ_mul]; exact hi
        omega
      rw [List.getD_eq_getElem?_getD,
        List.getElem?_append_right (by omega : t.length ≤ i),
        ← List.getD_eq_getElem?_getD, hplen, ih (i - p) hi',
        ← Nat.mod_eq_sub_mod hge]

/-- Membership in `(range n).drop 1`. -/
theorem mem_drop_one_range (n x : Nat) : x ∈ (List.range n).drop 1 ↔ 1 ≤ x ∧ x < n := by
  cases n with
  | zero => simp
  | succ m =>
    rw [List.range_succ_eq_map]
    simp only [List.drop_succ_cons, List.drop_zero, List.mem_map, List.mem_range]
    constructor
    · rintro ⟨y, hy, rfl⟩
      omega
    · rintro ⟨h1, h2⟩
      exact ⟨x - 1, by omega, by omega⟩

/-- `windowRepeats` unfolded to its universally quantified block condition. -/
theorem windowRepeats_eq_true_iff (sigs : List GoStr) (w p : Nat) :
    windowRepeats sigs w p = true ↔
      ∀ b, 1 ≤ b → b < w / p → ∀ j, j < p →
        sigs.getD (b * p + j) [] = (sigs.take p).getD j [] := by
  unfold windowRepeats blockOk
  rw [List.all_eq_true]
  constructor
  · intro h b hb1 hb2 j hj
    have hmem : b ∈ (List.range (w / p)).drop 1 := (mem_drop_one_range _ _).mpr ⟨hb1, hb2⟩
    have h2 := h b hmem
    rw [List.all_eq_true] at h2
    exact of_decide_eq_true (h2 j (List.mem_range.mpr hj))
  · intro h b hmem
    rw [List.all_eq_true]
    intro j hj
    obtain ⟨hb1, hb2⟩ := (mem_drop_one_range _ _).mp hmem
    exact decide_eq_true (h b hb1 hb2 j (List.mem_range.mp hj))

/-- For a window of length exactly `w` and a pattern length `p` dividing `w`,
the block check of `DetectLoop` holds iff the window is `w / p` repetitions of
its first `p` entries. -/
theorem windowRepeats_iff (sigs : List GoStr) (w p : Nat) (hw : 0 < w) (hp : 0 < p)
    (hpw : p ∣ w) (hlen : sigs.length = w) :
    windowRepeats sigs w p = true ↔
      sigs = (List.replicate (w / p) (sigs.take p)).flatten := by
  have hwp : w / p * p = w := Nat.div_mul_cancel hpw
  have hple : p ≤ w := Nat.le_of_dvd hw hpw
  have htake : (sigs.take p).length = p := by
    simp [hlen]
    omega
  have hflatlen : ((List.replicate (w / p) (sigs.take p)).flatten).length = w := by
    rw [flatten_replicate_length, htake, hwp]
  rw [windowRepeats_eq_true_iff]
  constructor
  · intro h
    apply List.ext_getElem (by rw [hlen, hflatlen])
    intro i h1 h2
    rw [← getD_eq_getElem_of_lt _ _ h1, ← getD_eq_getElem_of_lt _ _ h2]
    rw [flatten_replicate_getD _ _ _ p htake (by rw [hwp]; rw [hlen] at h1; exact h1)]
    rw [take_getD _ _ _ (Nat.mod_lt _ hp)]
    have hi : i < w := by rw [hlen] at h1; exact h1
    rcases lt_or_ge i p with hip | hip
    · rw [Nat.mod_eq_of_lt hip]
    · have hb1 : 1 ≤ i / p := (Nat.one_le_div_iff hp).mpr hip
      have hb2 : i / p < w / p := by
        by_contra hc
        push_neg at hc
        have hle1 : w / p * p ≤ i / p * p := Nat.mul_le_mul_right p hc
        have hle2 : i / p * p ≤ i := Nat.div_mul_le_self i p
        omega
      have hblk := h (i / p) hb1 hb2 (i % p) (Nat.mod_lt _ hp)
      rw [take_getD _ _ _ (Nat.mod_lt _ hp)] at hblk
      have hidx : i / p * p + i % p = i := by
        rw [Nat.mul_comm]
        exact Nat.div_add_mod i p
      rw [hidx] at hblk
      exact hblk
  · intro heq b hb1 hb2 j hj
    have hpoint : ∀ i, i < w → sigs.getD i [] = sigs.getD (i % p) [] := by
      intro i hi
      conv_lhs => rw [heq]
      rw [flatten_replicate_getD _ _ _ p htake (by rw [hwp]; exact hi)]
      rw [take_getD _ _ _ (Nat.mod_lt _ hp)]
    have hbw : b * p + j < w := by
      have hs1 : b * p + j < b * p + p := Nat.add_lt_add_left hj _
      have hs2 : b * p + p = (b + 1) * p := (Nat.succ_mul b p).symm
      have hs3 : (b + 1) * p ≤ w / p * p := Nat.mul_le_mul_right p (Nat.succ_le_of_lt hb2)
      omega
    have := hpoint (b * p + j) hbw
    rw [take_getD _ _ _ hj]
    rw [this]
    have hmod : (b * p + j) % p = j := by
      rw [Nat.add_comm, Nat.add_mul_mod_self_right, Nat.mod_eq_of_lt hj]
    rw [hmod]

/-- C3: `DetectLoop` returns false when fewer than `windowSize` signatures
exist; otherwise it returns true iff for some pattern length `p ∈ {1, 2, 3}`
dividing `windowSize`, the last `windowSize` signatures (chronological order)
are `windowSize / p` repetitions of their first `p` entries.  (The signature
text `name ++ ":" ++ hex(sha256(args)[:8])` is abstracted over the hash
function.) -/
theorem detect_loop_characterization (hash : GoStr → GoStr) (history : List Turn)
    (windowSize : Nat) (hw : 0 < windowSize) :
    ((allSignatures hash history).length < windowSize →
      DetectLoop hash history windowSize = false) ∧
    (windowSize ≤ (allSignatures hash history).length →
      (DetectLoop hash history windowSize = true ↔
        ∃ p ∈ ([1, 2, 3] : List Nat), p ∣ windowSize ∧
          lastWindow hash history windowSize =
            (List.replicate (windowSize / p)
              ((lastWindow hash history windowSize).take p)).flatten)) := by
  have hx := extract_eq_lastWindow hash history windowSize
  constructor
  · intro hlt
    have hlen : (lastWindow hash history windowSize).length < windowSize := by
      simp [lastWindow]
      omega
    simp only [DetectLoop, hx]
    rw [if_pos hlen]
  · intro hge
    have hlen : (lastWindow hash history windowSize).length = windowSize := by
      simp [lastWindow]
      omega
    simp only [DetectLoop, hx]
    rw [if_neg (by omega)]
    rw [List.any_eq_true]
    constructor
    · rintro ⟨p, hp, hcond⟩
      rw [Bool.and_eq_true] at hcond
      have hp0 : 0 < p := by
        simp at hp
        omega
      have hdvd : p ∣ windowSize :=
        Nat.dvd_of_mod_eq_zero (of_decide_eq_true hcond.1)
      exact ⟨p, hp, hdvd,
        (windowRepeats_iff _ _ _ hw hp0 hdvd hlen).mp hcond.2⟩
    · rintro ⟨p, hp, hdvd, heq⟩
      have hp0 : 0 < p := by
        simp at hp
        omega
      refine ⟨p, hp, ?_⟩
      rw [Bool.and_eq_true]
      exact ⟨decide_eq_true (Nat.mod_eq_zero_of_dvd hdvd),
        (windowRepeats_iff _ _ _ hw hp0 hdvd hlen).mpr heq⟩

/-- Witness for C3: a window of two identical `ls` calls is detected as a
pattern of length 1. -/
theorem detect_loop_characterization_w :
    DetectLoop (fun _ => []) [Turn.assistant []
      [⟨"1".toList, "ls".toList, "x".toList⟩, ⟨"2".toList, "ls".toList, "x".toList⟩]
      [] []] 2 = true :=
  ((detect_loop_characterization (fun _ => [])
      [Turn.assistant [] [⟨"1".toList, "ls".toList, "x".toList⟩,
        ⟨"2".toList, "ls".toList, "x".toList⟩] [] []] 2 (by decide)).2
    (by decide)).mpr ⟨1, by decide, by decide, by decide⟩

/-- `splitChar` never returns the empty list. -/
theorem splitChar_ne_nil (sep : Char) (s : GoStr) : splitChar sep s ≠ [] := by
  cases s with
  | nil => simp [splitChar]
  | cons c rest =>
    unfold splitChar
    split
    · simp
    · cases h : splitChar sep rest <;> simp

/-- `splitChar` of a separator-free string is that string alone. -/
theorem splitChar_sepFree (sep : Char) (a : GoStr) (h : sep ∉ a) :
    splitChar sep a = [a] := by
  induction a with
  | nil => rfl
  | cons c cs ih =>
    have hc : c ≠ sep := by
      intro hc
      exact h (hc ▸ List.mem_cons_self c cs)
    have hcs : sep ∉ cs := fun hm => h (List.mem_cons_of_mem c hm)
    unfold splitChar
    rw [if_neg (by exact fun he => hc he), ih hcs]

/-- Unfolding equation of `splitChar` on a cons cell. -/
theorem splitChar_cons (sep c : Char) (rest : GoStr) :
    splitChar sep (c :: rest) =
      if c = sep then [] :: splitChar sep rest
      else
        match splitChar sep rest with
        | [] => [[c]]
        | h :: t => (c :: h) :: t := rfl

/-- Splitting a string that starts with a separator-free field. -/
theorem splitChar_field_append (sep : Char) (a r : GoStr) (h : sep ∉ a) :
    splitChar sep (a ++ sep :: r) = a :: splitChar sep r := by
  induction a with
  | nil =>
    simp only [List.nil_append]
    rw [splitChar_cons, if_pos rfl]
  | cons c cs ih =>
    have hc : c ≠ sep := by
      intro hc
      exact h (hc ▸ List.mem_cons_self c cs)
    have hcs : sep ∉ cs := fun hm => h (List.mem_cons_of_mem c hm)
    simp only [List.cons_append]
    rw [splitChar_cons, if_neg (by exact fun he => hc he), ih hcs]

/-- Every field returned by `splitChar` is separator-free. -/
theorem splitChar_mem_sepFree (sep : Char) (s : GoStr) :
    ∀ x ∈ splitChar sep s, sep ∉ x := by
  induction s with
  | nil =>
    intro x hx
    simp [splitChar] at hx
    simp [hx]
  | cons c rest ih =>
    intro x hx
    unfold splitChar at hx
    by_cases hc : c = sep
    · rw [if_pos hc] at hx
      rcases List.mem_cons.mp hx with rfl | hx
      · simp
      · exact ih x hx
    · rw [if_neg hc] at hx
      cases hsp : splitChar sep rest with
      | nil => exact absurd hsp (splitChar_ne_nil sep rest)
      | cons hd tl =>
        rw [hsp] at hx
        rcases List.mem_cons.mp hx with rfl | hx
        · intro hmem
          rcases List.mem_cons.mp hmem with rfl | hmem
          · exact hc rfl
          · exact ih hd (hsp ▸ List.mem_cons_self hd tl) hmem
        · exact ih x (hsp ▸ List.mem_cons_of_mem hd hx)

/-- `goJoin` with the separator is a left inverse of `splitChar`. -/
theorem goJoin_splitChar (sep : Char) (s : GoStr) :
    goJoin [sep] (splitChar sep s) = s := by
  induction s with
  | nil => rfl
  | cons c rest ih =>
    unfold splitChar
    by_cases hc : c = sep
    · rw [if_pos hc]
      cases hsp : splitChar sep rest with
      | nil => exact absurd hsp (splitChar_ne_nil sep rest)
      | cons hd tl =>
        rw [hsp] at ih
        subst hc
        simp only [goJoin, List.nil_append, List.singleton_append]
        rw [ih]
    · rw [if_neg hc]
      cases hsp : splitChar sep rest with
      | nil => exact absurd hsp (splitChar_ne_nil sep rest)
      | cons hd tl =>
        rw [hsp] at ih
        cases tl with
        | nil =>
          simp only [goJoin] at ih ⊢
          rw [ih]
        | cons t ts =>
          simp only [goJoin, List.cons_append] at ih ⊢
          rw [← ih]

/-- Splitting the concatenation of separator-terminated, separator-free
chunks yields the chunks plus a trailing empty field. -/
theorem splitChar_chunks (sep : Char) (chunks : List GoStr)
    (h : ∀ c ∈ chunks, sep ∉ c) :
    splitChar sep (chunks.map (fun c => c ++ [sep])).flatten = chunks ++ [[]] := by
  induction chunks with
  | nil => rfl
  | cons c cs ih =>
    rw [List.map_cons, List.flatten_cons, List.append_assoc, List.singleton_append]
    rw [splitChar_field_append sep c _ (h c (List.mem_cons_self c cs))]
    rw [ih (fun x hx => h x (List.mem_cons_of_mem c hx))]
    rfl

/-- Appending accumulation in a fold is concatenation of the pieces. -/
theorem foldl_append_flatMap {α β : Type} (g : α → List β) (l : List α) (init : List β) :
    l.foldl (fun acc x => acc ++ g x) init = init ++ l.flatMap g := by
  induction l generalizing init with
  | nil => simp
  | cons x xs ih => simp [ih, List.append_assoc]

/-- Every character produced by `digitChar` is a decimal digit. -/
theorem digitChar_isDigit (d : Nat) : (digitChar d).isDigit = true := by
  unfold digitChar
  split <;> decide

/-- Every character of a rendered number is a decimal digit. -/
theorem natToCharsAux_digits (fuel n : Nat) :
    ∀ c ∈ natToCharsAux fuel n, c.isDigit = true := by
  induction fuel generalizing n with
  | zero => simp [natToCharsAux]
  | succ fuel ih =>
    intro c hc
    unfold natToCharsAux at hc
    split at hc
    · rcases List.mem_singleton.mp hc with rfl
      exact digitChar_isDigit n
    · rcases List.mem_append.mp hc with hc | hc
      · exact ih (n / 10) c hc
      · rcases List.mem_singleton.mp hc with rfl
        exact digitChar_isDigit (n % 10)

/-- Every character of `natToChars n` is a decimal digit. -/
theorem natToChars_digits (n : Nat) : ∀ c ∈ natToChars n, c.isDigit = true :=
  natToCharsAux_digits (n + 1) n

/-- A string starting with the pattern starts with the pattern. -/
theorem goStartsWith_prepend (pat rest : GoStr) : goStartsWith (pat ++ rest) pat = true := by
  induction pat with
  | nil => cases rest <;> rfl
  | cons p ps ih => simp [goStartsWith, ih]

/-- Unfolding equation of `goIndexOf` on a cons cell. -/
theorem goIndexOf_cons (c : Char) (rest sub : GoStr) :
    goIndexOf (c :: rest) sub =
      if goStartsWith (c :: rest) sub then some 0
      else (goIndexOf rest sub).map (· + 1) := rfl

/-- A string headed by a digit does not start with a space-headed pattern. -/
theorem goStartsWith_digit (c : Char) (hc : c.isDigit = true) (cs pat : GoStr) :
    goStartsWith (c :: cs) (' ' :: pat) = false := by
  have hne : c ≠ ' ' := fun h => absurd (h ▸ hc) (by decide)
  simp [goStartsWith, hne]

/-- In `digits ++ " | " ++ line` the first occurrence of `" | "` is right
after the digits, wherever `" | "` also occurs in `line`. -/
theorem goIndexOf_digits_sep (d l : GoStr) (hd : ∀ c ∈ d, c.isDigit = true) :
    goIndexOf (d ++ ' ' :: '|' :: ' ' :: l) (" | ".toList) = some d.length := by
  induction d with
  | nil =>
    simp only [List.nil_append]
    rw [goIndexOf_cons]
    have hsw : goStartsWith (' ' :: '|' :: ' ' :: l) (" | ".toList) = true := by
      have : (' ' :: '|' :: ' ' :: l : GoStr) = " | ".toList ++ l := rfl
      rw [this]
      exact goStartsWith_prepend _ _
    rw [hsw]
    rfl
  | cons c cs ih =>
    have hc := hd c (List.mem_cons_self c cs)
    have hcs : ∀ x ∈ cs, x.isDigit = true := fun x hx => hd x (List.mem_cons_of_mem c hx)
    simp only [List.cons_append]
    rw [goIndexOf_cons]
    have hsw : goStartsWith (c :: (cs ++ ' ' :: '|' :: ' ' :: l)) (" | ".toList) = false := by
      have : (" | ".toList : GoStr) = ' ' :: "| ".toList := rfl
      rw [this]
      exact goStartsWith_digit c hc _ _
    rw [hsw]
    rw [if_neg (by simp)]
    rw [ih hcs]
    simp

/-- `stripEntry` inverts the numbering of a single line. -/
theorem stripEntry_numbered (i : Nat) (line : GoStr) :
    stripEntry (natToChars (i + 1) ++ " | ".toList ++ line) = [line] := by
  unfold stripEntry
  have hassoc : natToChars (i + 1) ++ " | ".toList ++ line =
      natToChars (i + 1) ++ (' ' :: '|' :: ' ' :: line) := by
    rw [List.append_assoc]
    rfl
  rw [hassoc]
  simp only [goIndexOf_digits_sep _ _ (natToChars_digits (i + 1))]
  have h2 : natToChars (i + 1) ++ (' ' :: '|' :: ' ' :: line) =
      (natToChars (i + 1) ++ [' ', '|', ' ']) ++ line := by
    rw [List.append_assoc]
    rfl
  have h3 : (natToChars (i + 1)).length + 3 =
      (natToChars (i + 1) ++ [' ', '|', ' ']).length := by
    simp
  rw [h2, h3, List.drop_left]

/-- `stripEntry` skips the empty trailing field. -/
theorem stripEntry_nil : stripEntry [] = [] := by decide

/-- Splitting a block of numbered lines recovers the numbered bodies plus the
trailing empty field. -/
theorem splitChar_numbered (lines : List GoStr) (h : ∀ x ∈ lines, '\n' ∉ x)
    (idxs : List Nat) :
    splitChar '\n' (idxs.flatMap (fun i => numberLine i (lines.getD i []))) =
      idxs.map (fun i => natToChars (i + 1) ++ " | ".toList ++ lines.getD i []) ++ [[]] := by
  have hbody : ∀ i : Nat, '\n' ∉ natToChars (i + 1) ++ " | ".toList ++ lines.getD i [] := by
    intro i hmem
    rcases List.mem_append.mp hmem with hmem | hmem
    · rcases List.mem_append.mp hmem with hmem | hmem
      · exact absurd (natToChars_digits (i + 1) _ hmem) (by decide)
      · exact absurd hmem (by decide)
    · by_cases hi : i < lines.length
      · rw [List.getD_eq_getElem?_getD, List.getElem?_eq_getElem hi] at hmem
        exact h _ (List.getElem_mem hi) hmem
      · rw [List.getD_eq_default _ _ (by omega)] at hmem
        exact absurd hmem (List.not_mem_nil _)
  have hch := splitChar_chunks '\n'
    (idxs.map (fun i => natToChars (i + 1) ++ " | ".toList ++ lines.getD i []))
    (by
      intro c hc
      rcases List.mem_map.mp hc with ⟨i, _, rfl⟩
      exact hbody i)
  rw [← hch]
  congr 1
  rw [List.map_map]
  rw [List.flatMap_def]
  rfl

/-- The indexed `getD` image of `range` is the list itself. -/
theorem map_getD_range (l : List GoStr) :
    (List.range l.length).map (fun i => l.getD i []) = l := by
  induction l with
  | nil => simp
  | cons x xs ih =>
    rw [List.length_cons, List.range_succ_eq_map, List.map_cons, List.map_map]
    have hcomp : ((fun i => (x :: xs).getD i []) ∘ Nat.succ) = fun i => xs.getD i [] := by
      funext i
      simp
    rw [hcomp, ih]
    rfl

/-- `ReadFile` with `offset = 0` and `limit = 0` numbers every line. -/
theorem readFile_zero_zero (data : GoStr) :
    ReadFile data 0 0 =
      (List.range (splitChar '\n' data).length).flatMap
        (fun i => numberLine i ((splitChar '\n' data).getD i [])) := by
  have hne : ¬ (splitChar '\n' data).length ≤ 0 := by
    cases h : splitChar '\n' data with
    | nil => exact absurd h (splitChar_ne_nil '\n' data)
    | cons a b => simp [h]
  simp only [ReadFile]
  have h0 : ¬ ((0 : Int) < 0) := by decide
  rw [if_neg h0]
  rw [if_neg hne]
  rw [if_neg (by simp)]
  rw [foldl_append_flatMap, List.nil_append, Nat.sub_zero, ← List.range_eq_range']

/-- Mapping into singletons and flattening is mapping. -/
theorem flatMap_singleton {α β : Type} (l : List α) (f : α → β) :
    (l.flatMap fun x => [f x]) = l.map f := by
  induction l with
  | nil => rfl
  | cons x xs ih => simp only [List.flatMap_cons, List.map_cons, List.singleton_append, ih]

/-- `readRawFile` inverts the full numbered `ReadFile`: the edit tool operates
on the exact raw file content. -/
theorem readRawFile_ReadFile (data : GoStr) :
    readRawFile (ReadFile data 0 0) = data := by
  rw [readFile_zero_zero]
  unfold readRawFile
  rw [splitChar_numbered _ (splitChar_mem_sepFree '\n' data)]
  rw [foldl_append_flatMap, List.nil_append, List.flatMap_append]
  have h1 : ([[]] : List GoStr).flatMap stripEntry = [] := by
    simp [stripEntry_nil]
  rw [h1, List.append_nil]
  rw [List.flatMap_map]
  simp only [stripEntry_numbered]
  rw [flatMap_singleton, map_getD_range, goJoin_splitChar]

/-- Number of numbered lines produced for a block of indices. -/
theorem readFile_count_chunk (lines : List GoStr) (h : ∀ x ∈ lines, '\n' ∉ x)
    (idxs : List Nat) :
    numberedLineCount (idxs.flatMap (fun i => numberLine i (lines.getD i []))) =
      idxs.length := by
  unfold numberedLineCount
  rw [splitChar_numbered lines h idxs]
  simp

/-- `ReadFile` at `offset = limit = 0` returns one numbered line per line of
the file. -/
theorem readFile_count_all (data : GoStr) :
    numberedLineCount (ReadFile data 0 0) = (splitChar '\n' data).length := by
  rw [readFile_zero_zero]
  rw [readFile_count_chunk _ (splitChar_mem_sepFree '\n' data)]
  simp

/-- Splitting a run of `n` separators yields `n + 1` empty fields. -/
theorem splitChar_replicate (n : Nat) (c : Char) :
    splitChar c (List.replicate n c) = List.replicate (n + 1) [] := by
  induction n with
  | zero => rfl
  | succ n ih =>
    rw [List.replicate_succ, splitChar_cons, if_pos rfl, ih]
    rfl

/-- C8 counterexample: the execution environment's `ReadFile` with `limit = 0`
is unlimited, not capped at 2000 lines — a 2001-line file (2000 newlines)
yields 2001 numbered lines. -/
theorem read_file_env_limit_zero_cx :
    2000 < numberedLineCount (ReadFile (List.replicate 2000 '\n') 0 0) := by
  rw [readFile_count_all, splitChar_replicate]
  simp

/-- With a positive `limit`, `ReadFile` returns at most `limit` lines. -/
theorem readFile_line_count_le (data : GoStr) (offset limit : Int) (hl : 0 < limit) :
    numberedLineCount (ReadFile data offset limit) ≤ limit.toNat := by
  simp only [ReadFile]
  split_ifs
  all_goals
    first
      | (rw [foldl_append_flatMap, List.nil_append,
            readFile_count_chunk _ (splitChar_mem_sepFree '\n' data), List.length_range']
         omega)
      | simp [numberedLineCount, splitChar]

/-- C8 (amended): the 2000-line default lives in the `read_file` tool, which
substitutes `limit = 2000` when the argument is missing or 0 before calling
the environment `ReadFile`; the environment itself caps at `limit` only for
`limit > 0` (and `ReadFile` with `limit = 0` reads everything, see the
counterexample). -/
theorem read_file_default_limit (data : GoStr) (offsetArg limitArg : Option Int)
    (h : limitArg.getD 0 = 0) :
    readFileToolExec data offsetArg limitArg = ReadFile data (offsetArg.getD 0) 2000 ∧
    (∀ lim : Int, 0 < lim →
      numberedLineCount (ReadFile data (offsetArg.getD 0) lim) ≤ lim.toNat) := by
  constructor
  · simp [readFileToolExec, h]
  · intro lim hlim
    exact readFile_line_count_le data (offsetArg.getD 0) lim hlim

/-- Witness for C8 (amended): a `read_file` call with no `limit` argument. -/
theorem read_file_default_limit_w :
    readFileToolExec ("a".toList) none none = ReadFile ("a".toList) ((none : Option Int).getD 0) 2000 ∧
    (∀ lim : Int, 0 < lim →
      numberedLineCount (ReadFile ("a".toList) ((none : Option Int).getD 0) lim) ≤ lim.toNat) :=
  read_file_default_limit ("a".toList) none none (by decide)

/-- C7: `edit_file` errors with "old_string not found in path" on zero
occurrences, errors with the counted-occurrences message on more than one
occurrence without `replace_all`, and otherwise replaces one occurrence (all
with `replace_all`) and reports the number replaced.  Occurrences are counted
non-overlapping, as `strings.Count` does. -/
theorem edit_file_spec (fileContent oldString newString : GoStr) (replaceAll : Bool)
    (filePath : GoStr) :
    (goCount fileContent oldString = 0 →
      editFileExec fileContent oldString newString replaceAll filePath =
        .error ("old_string not found in ".toList ++ filePath)) ∧
    (1 < goCount fileContent oldString → replaceAll = false →
      editFileExec fileContent oldString newString replaceAll filePath =
        .error ("old_string found ".toList ++ natToChars (goCount fileContent oldString) ++
          " times in ".toList ++ filePath ++
          ". Provide more context to make it unique, or set replace_all=true".toList)) ∧
    (goCount fileContent oldString ≠ 0 →
      (goCount fileContent oldString = 1 ∨ replaceAll = true) →
      editFileExec fileContent oldString newString replaceAll filePath =
        .ok ((if replaceAll then goReplaceAll fileContent oldString newString
              else goReplace1 fileContent oldString newString),
          "Successfully replaced ".toList ++
            natToChars (if replaceAll then goCount fileContent oldString else 1) ++
            " occurrence(s) in ".toList ++ filePath)) := by
  have hraw := readRawFile_ReadFile fileContent
  refine ⟨?_, ?_, ?_⟩
  · intro h0
    simp only [editFileExec, hraw]
    rw [if_pos h0]
  · intro h1 hra
    simp only [editFileExec, hraw]
    rw [if_neg (by omega), if_pos ⟨h1, hra⟩]
  · intro h0 hor
    simp only [editFileExec, hraw]
    rw [if_neg h0]
    rw [if_neg ?hcond]
    case hcond =>
      rintro ⟨hgt, hra⟩
      rcases hor with h1 | h1
      · omega
      · rw [h1] at hra
        exact absurd hra (by decide)

/-- Witness for C7: replacing the unique `"b"` in `"aba"`. -/
theorem edit_file_spec_w :
    editFileExec ("aba".toList) ("b".toList) ("c".toList) false ("/f".toList) =
      .ok ((if false then goReplaceAll ("aba".toList) ("b".toList) ("c".toList)
            else goReplace1 ("aba".toList) ("b".toList) ("c".toList)),
        "Successfully replaced ".toList ++
          natToChars (if false then goCount ("aba".toList) ("b".toList) else 1) ++
          " occurrence(s) in ".toList ++ "/f".toList) :=
  (edit_file_spec ("aba".toList) ("b".toList) ("c".toList) false ("/f".toList)).2.2
    (by decide) (Or.inl (by decide))

/-- Every branch of `executeSingleTool` carries the call id through. -/
theorem executeSingleTool_id (registry : ToolRegistry) (charLimits : LimitMap)
    (lineLimits : Option LimitMap) (tc : ToolCall) :
    (executeSingleTool registry charLimits lineLimits tc).toolCallId = tc.id := by
  unfold executeSingleTool
  split
  · rfl
  · split <;> rfl

/-- Tool dispatch produces results matching the calls pairwise. -/
theorem executeToolCalls_match (registry : ToolRegistry) (charLimits : LimitMap)
    (lineLimits : Option LimitMap) (toolCalls : List ToolCall) :
    ResultsMatch toolCalls (executeToolCalls registry charLimits lineLimits toolCalls) := by
  constructor
  · simp [executeToolCalls]
  · intro i tc res h1 h2
    simp only [executeToolCalls, List.getElem?_map, h1, Option.map_some',
      Option.some.injEq] at h2
    rw [← h2]
    exact executeSingleTool_id registry charLimits lineLimits tc

/-- The empty history satisfies the session invariant. -/
theorem sessionInvariant_nil : SessionInvariant [] := by
  constructor <;> intro i <;> simp

/-- Appending a turn that is neither a tool-results turn nor an assistant turn
with tool calls preserves the session invariant. -/
theorem sessionInvariant_append_safe (hist : List Turn) (t : Turn)
    (hinv : SessionInvariant hist)
    (hnotr : ∀ rs, t ≠ Turn.toolResults rs)
    (hasst : ∀ c tcs r rid, t = Turn.assistant c tcs r rid → tcs = []) :
    SessionInvariant (hist ++ [t]) := by
  constructor
  · intro i c tcs r rid hi htcs
    by_cases hiL : i < hist.length
    · rw [List.getElem?_append_left hiL] at hi
      obtain ⟨rs, hrs, hmatch⟩ := hinv.1 i c tcs r rid hi htcs
      have hi1 : i + 1 < hist.length := by
        by_contra hc
        rw [List.getElem?_eq_none (by omega)] at hrs
        exact Option.noConfusion hrs
      exact ⟨rs, by rw [List.getElem?_append_left hi1]; exact hrs, hmatch⟩
    · rw [List.getElem?_append_right (by omega)] at hi
      rcases hd : i - hist.length with _ | n
      · rw [hd] at hi
        simp only [List.getElem?_cons_zero, Option.some.injEq] at hi
        exact absurd (hasst c tcs r rid hi) htcs
      · rw [hd] at hi
        simp at hi
  · intro i rs hi
    by_cases hiL : i < hist.length
    · rw [List.getElem?_append_left hiL] at hi
      obtain ⟨j, c, tcs, r, rid, hij, hj, htcs⟩ := hinv.2 i rs hi
      exact ⟨j, c, tcs, r, rid, hij,
        by rw [List.getElem?_append_left (by omega)]; exact hj, htcs⟩
    · rw [List.getElem?_append_right (by omega)] at hi
      rcases hd : i - hist.length with _ | n
      · rw [hd] at hi
        simp only [List.getElem?_cons_zero, Option.some.injEq] at hi
        exact absurd hi (hnotr rs)
      · rw [hd] at hi
        simp at hi

/-- Appending an assistant turn with tool calls immediately followed by its
matching tool-results turn preserves the session invariant. -/
theorem sessionInvariant_append_pair (hist : List Turn) (c : GoStr) (tcs : List ToolCall)
    (r rid : GoStr) (rs : List ToolResult) (hinv : SessionInvariant hist)
    (htcs : tcs ≠ []) (hmatch : ResultsMatch tcs rs) :
    SessionInvariant (hist ++ [Turn.assistant c tcs r rid, Turn.toolResults rs]) := by
  constructor
  · intro i c' tcs' r' rid' hi htcs'
    by_cases hiL : i < hist.length
    · rw [List.getElem?_append_left hiL] at hi
      obtain ⟨rs', hrs', hmatch'⟩ := hinv.1 i c' tcs' r' rid' hi htcs'
      have hi1 : i + 1 < hist.length := by
        by_contra hc
        rw [List.getElem?_eq_none (by omega)] at hrs'
        exact Option.noConfusion hrs'
      exact ⟨rs', by rw [List.getElem?_append_left hi1]; exact hrs', hmatch'⟩
    · rw [List.getElem?_append_right (by omega)] at hi
      rcases hd : i - hist.length with _ | n
      · rw [hd] at hi
        simp only [List.getElem?_cons_zero, Option.some.injEq] at hi
        obtain ⟨rfl, rfl, rfl, rfl⟩ :=
          (Turn.assistant.injEq _ _ _ _ _ _ _ _).mp hi.symm
        refine ⟨rs, ?_, hmatch⟩
        rw [List.getElem?_append_right (by omega), show i + 1 - hist.length = 1 by omega]
        rfl
      · rcases n with _ | m
        · rw [hd] at hi
          simp at hi
        · rw [hd] at hi
          simp at hi
  · intro i rs' hi
    by_cases hiL : i < hist.length
    · rw [List.getElem?_append_left hiL] at hi
      obtain ⟨j, c', tcs', r', rid', hij, hj, htcs'⟩ := hinv.2 i rs' hi
      exact ⟨j, c', tcs', r', rid', hij,
        by rw [List.getElem?_append_left (by omega)]; exact hj, htcs'⟩
    · rw [List.getElem?_append_right (by omega)] at hi
      rcases hd : i - hist.length with _ | n
      · rw [hd] at hi
        simp at hi
      · rcases n with _ | m
        · rw [hd] at hi
          simp only [List.getElem?_cons_succ, List.getElem?_cons_zero,
            Option.some.injEq] at hi
          refine ⟨hist.length, c, tcs, r, rid, by omega, ?_, htcs⟩
          rw [List.getElem?_append_right (by omega), Nat.sub_self]
          rfl
        · rw [hd] at hi
          simp at hi

/-- `drainSteering` appends only steering turns, preserving the invariant. -/
theorem drainSteering_inv (st : SessionModel) (messages : List GoStr)
    (hinv : SessionInvariant st.history) :
    SessionInvariant (drainSteering st messages).history := by
  induction messages generalizing st with
  | nil => exact hinv
  | cons m ms ih =>
    rw [drainSteering, List.foldl_cons]
    exact ih _ (sessionInvariant_append_safe _ _ hinv (by intro rs h; cases h)
      (by intro c tcs r rid h; cases h))

/-- `checkContextUsage` never changes the history. -/
theorem checkContextUsage_history (contextWindow : Nat) (st : SessionModel) :
    (checkContextUsage contextWindow st).history = st.history := by
  simp only [checkContextUsage]
  split_ifs <;> rfl

/-- Projections through `emit` and `appendTurn`. -/
theorem emit_history (s : SessionModel) (k : EventKind) :
    (s.emit k).history = s.history := rfl

/-- `appendTurn` appends exactly one turn. -/
theorem appendTurn_history (s : SessionModel) (t : Turn) :
    (s.appendTurn t).history = s.history ++ [t] := rfl

/-- The per-input loop preserves the session invariant, whatever the LLM,
steering, abort and cancellation oracles do. -/
theorem runRounds_inv (cfg : SessionConfig) (registry : ToolRegistry)
    (hash : GoStr → GoStr) (contextWindow : Nat) (roundCount : Nat)
    (rounds : List RoundOracle) (st : SessionModel)
    (hinv : SessionInvariant st.history) :
    SessionInvariant
      (runRounds cfg registry hash contextWindow roundCount rounds st).1.history := by
  induction rounds generalizing roundCount st with
  | nil => exact hinv
  | cons r rest ih =>
    simp only [runRounds]
    split_ifs with h1 h2 h3 h4
    · exact hinv
    · exact hinv
    · exact hinv
    · exact hinv
    · split
      · split_ifs with h5
        · exact hinv
        · exact hinv
      · rename_i resp heq
        split_ifs with h6 h7
        · rw [checkContextUsage_history, emit_history, appendTurn_history, emit_history]
          exact sessionInvariant_append_safe _ _ hinv (by intro rs h; cases h)
            (by intro c' tcs' r' rid' h; cases h; exact h6)
        · apply ih
          simp only [emit_history, appendTurn_history]
          refine sessionInvariant_append_safe _ _ (drainSteering_inv _ _ ?_)
            (by intro rs h; cases h) (by intro c' tcs' r' rid' h; cases h)
          simp only [emit_history, appendTurn_history, checkContextUsage_history]
          rw [List.append_assoc]
          exact sessionInvariant_append_pair _ _ _ _ _ _ hinv h6
            (executeToolCalls_match _ _ _ _)
        · apply ih
          refine drainSteering_inv _ _ ?_
          simp only [emit_history, appendTurn_history, checkContextUsage_history]
          rw [List.append_assoc]
          exact sessionInvariant_append_pair _ _ _ _ _ _ hinv h6
            (executeToolCalls_match _ _ _ _)

/-- `processInput` (including follow-up recursion) preserves the invariant. -/
theorem processInput_inv (cfg : SessionConfig) (registry : ToolRegistry)
    (hash : GoStr → GoStr) (contextWindow : Nat) (st : SessionModel) (input : GoStr)
    (io : InputOracle) (followups : List (GoStr × InputOracle))
    (hinv : SessionInvariant st.history) :
    SessionInvariant
      (processInput cfg registry hash contextWindow st input io followups).1.history := by
  induction followups generalizing st input io with
  | nil =>
    rw [processInput]
    have hrr := runRounds_inv cfg registry hash contextWindow 0 io.rounds
      (drainSteering ((st.appendTurn (Turn.user input)).emit EventKind.userInput)
        io.initialSteer)
      (drainSteering_inv _ _ (by
        rw [emit_history, appendTurn_history]
        exact sessionInvariant_append_safe _ _ hinv (by intro rs h; cases h)
          (by intro c tcs r rid h; cases h)))
    rcases h : runRounds cfg registry hash contextWindow 0 io.rounds
        (drainSteering ((st.appendTurn (Turn.user input)).emit EventKind.userInput)
          io.initialSteer) with ⟨st3, ex⟩
    rw [h] at hrr
    cases ex
    · exact hrr
    · exact hrr
  | cons fu rest ih =>
    rcases fu with ⟨next, nio⟩
    rw [processInput]
    have hrr := runRounds_inv cfg registry hash contextWindow 0 io.rounds
      (drainSteering ((st.appendTurn (Turn.user input)).emit EventKind.userInput)
        io.initialSteer)
      (drainSteering_inv _ _ (by
        rw [emit_history, appendTurn_history]
        exact sessionInvariant_append_safe _ _ hinv (by intro rs h; cases h)
          (by intro c tcs r rid h; cases h)))
    rcases h : runRounds cfg registry hash contextWindow 0 io.rounds
        (drainSteering ((st.appendTurn (Turn.user input)).emit EventKind.userInput)
          io.initialSteer) with ⟨st3, ex⟩
    rw [h] at hrr
    cases ex
    · exact ih st3 next nio hrr
    · exact hrr

/-- C1: every session history produced by `Submit` satisfies the invariant —
each assistant turn with a non-empty tool-call list is immediately followed by
exactly one tool-results turn with as many results as calls, carrying the call
ids in the same order (and tool-results turns appear nowhere else). -/
theorem submit_session_invariant (cfg : SessionConfig) (registry : ToolRegistry)
    (hash : GoStr → GoStr) (contextWindow : Nat) (st : SessionModel) (input : GoStr)
    (io : InputOracle) (followups : List (GoStr × InputOracle))
    (hinv : SessionInvariant st.history) :
    SessionInvariant
      (Submit cfg registry hash contextWindow st input io followups).1.history := by
  unfold Submit
  split_ifs with h
  · exact hinv
  · exact processInput_inv cfg registry hash contextWindow _ input io followups hinv

/-- Witness for C1: a fresh session processing one round with one tool call
against an empty registry. -/
theorem submit_session_invariant_w :
    SessionInvariant
      (Submit DefaultSessionConfig (fun _ => none) (fun _ => []) 1048576
        ⟨.idle, [], []⟩ ("hi".toList)
        ⟨[], [⟨false, false, .success ⟨"t".toList,
          [⟨"1".toList, "shell".toList, "x".toList⟩], [], []⟩, []⟩]⟩ []).1.history :=
  submit_session_invariant _ _ _ _ _ _ _ _ sessionInvariant_nil

end Attractor
